import Mathlib

/-!
# ByteProbe forensic core — verification development

A shallow embedding of the algorithmic core of the ByteProbe digital-forensics
tool, together with theorems settling a list of behavioural claims about it.

Embedded components (each definition is translated from the named Python
source):

* `src/core/forensics/file_signatures.py` — the signature registry,
  the alternative-headers table and `identify_file_type`;
* `src/core/forensics/file_carver.py` — the chunked header scan of
  `BasicFileCarver.carve_files` and the per-candidate extraction loop of
  `BasicFileCarver._carve_single_file`;
* `src/core/forensics/timestamp_analyzer.py` — per-file timestamp analysis,
  batch analysis and mass-timestamp pattern detection;
* `src/core/forensics/hash_verifier.py` — algorithm filtering of
  `calculate_file_hash` / `calculate_data_hash` and the upsert semantics of
  the hash store;
* `src/core/parsers/pytsk_parser.py` — the partition-table fallback of
  `get_partitions` and the recursion structure of `walk_file_system`.

Bytes are modelled as `List Nat` (each element a byte value); Python
`bytes.find` and slice operations are modelled by explicit (executable)
list functions below.
-/

namespace ByteProbe

/-- Byte strings are lists of byte values. -/
abbrev Bytes := List Nat

/-- The Python slice `l[s:e]` (for `0 ≤ s ≤ e`): bytes of `l` from index `s`
(inclusive) to `e` (exclusive), truncated at the end of `l`. -/
def seg (l : Bytes) (s e : Nat) : Bytes := (l.drop s).take (e - s)

/-- The Python slice `l[-n:]`: the last `n` elements of `l` (all of `l` when
`l` is shorter than `n`). -/
def lastN (n : Nat) (l : Bytes) : Bytes := l.drop (l.length - n)

/-- `matchAt buf pat i` holds when `pat` occurs in `buf` starting at index `i`
(the Python test `buf[i:i+len(pat)] == pat`). -/
def matchAt (buf pat : Bytes) (i : Nat) : Bool := (buf.drop i).take pat.length == pat

/-- Python `buf.find(pat, start)`: the least index `p ≥ start` at which `pat`
occurs in `buf`, or `none` (Python `-1`) when there is no such index. -/
def findFrom (buf pat : Bytes) (start : Nat) : Option Nat :=
  if buf.length < start + pat.length then none
  else if matchAt buf pat start then some start
  else findFrom buf pat (start + 1)
termination_by buf.length + pat.length + 1 - start

@[simp] theorem seg_nil (s e : Nat) : seg [] s e = [] := by
  simp [seg]

theorem seg_length (l : Bytes) (s e : Nat) :
    (seg l s e).length = min (e - s) (l.length - s) := by
  simp [seg]

theorem seg_eq_nil_of_ge (l : Bytes) {s e : Nat} (h : e ≤ s) : seg l s e = [] := by
  simp [seg, Nat.sub_eq_zero_of_le h]

theorem seg_append (l : Bytes) {s m e : Nat} (h1 : s ≤ m) (h2 : m ≤ e) :
    seg l s m ++ seg l m e = seg l s e := by
  unfold seg
  have he : e - s = (m - s) + (e - m) := by omega
  rw [he, List.take_add]
  congr 1
  rw [List.drop_drop]
  congr 2
  omega

theorem matchAt_length_le {buf pat : Bytes} {q : Nat} (h : matchAt buf pat q = true) :
    pat.length ≤ buf.length - q := by
  have h' : (buf.drop q).take pat.length = pat := by simpa [matchAt] using h
  have hl : ((buf.drop q).take pat.length).length = pat.length := by rw [h']
  simp [List.length_take, List.length_drop] at hl
  omega

theorem matchAt_le {buf pat : Bytes} {q : Nat} (hne : pat ≠ [])
    (h : matchAt buf pat q = true) : q + pat.length ≤ buf.length := by
  have := matchAt_length_le h
  have hp : 0 < pat.length := List.length_pos.mpr hne
  omega

/-- Matching inside a slice `seg l s e` is matching in `l` shifted by `s`,
provided the match fits before the slice's right edge. -/
theorem matchAt_seg {l pat : Bytes} (s e p : Nat) (hne : pat ≠ []) :
    matchAt (seg l s e) pat p = true ↔
      (matchAt l pat (s + p) = true ∧ s + p + pat.length ≤ e) := by
  have hp : 0 < pat.length := List.length_pos.mpr hne
  unfold matchAt seg
  rw [List.drop_take, List.drop_drop]
  constructor
  · intro h
    have h' : (List.take (e - s - p) (l.drop (s + p))).take pat.length = pat := by
      simpa using h
    rw [List.take_take] at h'
    have hlen : ((l.drop (s + p)).take (min pat.length (e - s - p))).length = pat.length := by
      rw [h']
    simp [List.length_take, List.length_drop] at hlen
    have hfit : pat.length ≤ e - s - p := by omega
    have hmin : min pat.length (e - s - p) = pat.length := by omega
    rw [hmin] at h'
    constructor
    · simpa using h'
    · omega
  · rintro ⟨h, hfit⟩
    have h' : (l.drop (s + p)).take pat.length = pat := by simpa using h
    have hlen := matchAt_le hne h
    rw [List.take_take]
    have hmin : min pat.length (e - s - p) = pat.length := by omega
    simpa [hmin] using h'

theorem lastN_seg (l : Bytes) {s e n : Nat} (hs : s ≤ e) (he : e ≤ l.length)
    (hn : n ≤ e - s) : lastN n (seg l s e) = seg l (e - n) e := by
  unfold lastN seg
  have hlen : ((l.drop s).take (e - s)).length = e - s := by
    rw [List.length_take, List.length_drop]
    omega
  rw [hlen, List.drop_take, List.drop_drop]
  have h1 : e - s - (e - s - n) = e - (e - n) := by omega
  have h2 : s + (e - s - n) = e - n := by omega
  rw [h1, h2]

theorem findFrom_some_spec {buf pat : Bytes} {start p : Nat}
    (h : findFrom buf pat start = some p) :
    start ≤ p ∧ p + pat.length ≤ buf.length ∧ matchAt buf pat p = true := by
  rw [findFrom] at h
  split at h
  · exact absurd h (by simp)
  · split at h
    · rename_i hle hm
      cases h
      exact ⟨le_refl _, by omega, hm⟩
    · have ih := findFrom_some_spec h
      exact ⟨by omega, ih.2.1, ih.2.2⟩
termination_by buf.length + pat.length + 1 - start
decreasing_by
  rename_i hle _
  omega

theorem findFrom_none_spec {buf pat : Bytes} {start : Nat}
    (h : findFrom buf pat start = none) :
    ∀ q, start ≤ q → q + pat.length ≤ buf.length → matchAt buf pat q = false := by
  intro q hq hqlen
  rw [findFrom] at h
  split at h
  · omega
  · split at h
    · exact absurd h (by simp)
    · rename_i hle hm
      rcases Nat.eq_or_lt_of_le hq with heq | hlt
      · subst heq; simpa using hm
      · exact findFrom_none_spec h q hlt hqlen
termination_by buf.length + pat.length + 1 - start
decreasing_by
  rename_i hle _
  omega

theorem findFrom_min_spec {buf pat : Bytes} {start p : Nat}
    (h : findFrom buf pat start = some p) :
    ∀ q, start ≤ q → q < p → matchAt buf pat q = false := by
  intro q hq hqp
  rw [findFrom] at h
  split at h
  · exact absurd h (by simp)
  · split at h
    · cases h; omega
    · rename_i hle hm
      rcases Nat.eq_or_lt_of_le hq with heq | hlt
      · subst heq; simpa using hm
      · exact findFrom_min_spec h q hlt hqp
termination_by buf.length + pat.length + 1 - start
decreasing_by
  rename_i hle _
  omega

/-- Completeness: if some index `≥ start` matches, `findFrom` returns one. -/
theorem findFrom_complete {buf pat : Bytes} {start q : Nat}
    (hq : start ≤ q) (hqlen : q + pat.length ≤ buf.length)
    (hm : matchAt buf pat q = true) : ∃ p, findFrom buf pat start = some p := by
  cases h : findFrom buf pat start with
  | none => exact absurd (findFrom_none_spec h q hq hqlen) (by simp [hm])
  | some p => exact ⟨p, rfl⟩

/-- Full characterisation of `findFrom` returning `some`. -/
theorem findFrom_eq_some_iff {buf pat : Bytes} {start p : Nat} (hne : pat ≠ []) :
    findFrom buf pat start = some p ↔
      (start ≤ p ∧ matchAt buf pat p = true ∧
        ∀ q, start ≤ q → q < p → matchAt buf pat q = false) := by
  constructor
  · intro h
    obtain ⟨h1, _, h3⟩ := findFrom_some_spec h
    exact ⟨h1, h3, findFrom_min_spec h⟩
  · rintro ⟨h1, h2, h3⟩
    obtain ⟨p', hp'⟩ := findFrom_complete h1 (matchAt_le hne h2) h2
    obtain ⟨g1, _, g3⟩ := findFrom_some_spec hp'
    have hmin := findFrom_min_spec hp'
    rcases Nat.lt_trichotomy p p' with hlt | heq | hgt
    · exact absurd h2 (by simp [hmin p h1 hlt])
    · rw [hp', heq]
    · exact absurd g3 (by simp [h3 p' g1 hgt])

/-- The Python loop in `carve_files` that repeatedly calls
`buffer.find(header, header_pos)` and then advances `header_pos` one byte past
each match: the (increasing) list of all match positions `≥ start`. -/
def findAllFrom (buf pat : Bytes) (start : Nat) : List Nat :=
  match h : findFrom buf pat start with
  | none => []
  | some p => p :: findAllFrom buf pat (p + 1)
termination_by buf.length + pat.length + 1 - start
decreasing_by
  have h1 := findFrom_some_spec h
  omega

theorem findAllFrom_mem {buf pat : Bytes} (hne : pat ≠ []) :
    ∀ (start q : Nat),
      q ∈ findAllFrom buf pat start ↔ (start ≤ q ∧ matchAt buf pat q = true) := by
  intro start
  generalize hfuel : buf.length + pat.length + 1 - start = n
  induction n using Nat.strong_induction_on generalizing start with
  | _ n ih =>
    intro q
    rw [findAllFrom]
    split
    · rename_i h
      simp only [List.not_mem_nil, false_iff]
      rintro ⟨hq, hm⟩
      exact absurd (findFrom_none_spec h q hq (matchAt_le hne hm)) (by simp [hm])
    · rename_i p h
      obtain ⟨h1, h2, h3⟩ := findFrom_some_spec h
      have ihp := ih (buf.length + pat.length + 1 - (p + 1)) (by omega) (p + 1) rfl q
      simp only [List.mem_cons, ihp]
      constructor
      · rintro (rfl | ⟨hq, hm⟩)
        · exact ⟨h1, h3⟩
        · exact ⟨by omega, hm⟩
      · rintro ⟨hq, hm⟩
        rcases Nat.lt_trichotomy q p with hlt | heq | hgt
        · exact absurd hm (by simp [findFrom_min_spec h q hq hlt])
        · exact Or.inl heq
        · exact Or.inr ⟨hgt, hm⟩

theorem findAllFrom_eq_nil {buf pat : Bytes} (start : Nat) (hne : pat ≠ [])
    (h : ∀ q, matchAt buf pat q = false) : findAllFrom buf pat start = [] := by
  cases hl : findAllFrom buf pat start with
  | nil => rfl
  | cons a l =>
      have : a ∈ findAllFrom buf pat start := by rw [hl]; exact List.mem_cons_self a l
      rw [findAllFrom_mem hne] at this
      exact absurd this.2 (by simp [h a])

/-- If `pat` matches `buf` at exactly one position `a ≥ start`, the scan-all
loop produces exactly the singleton `[a]`. -/
theorem findAllFrom_unique {buf pat : Bytes} {start a : Nat} (hne : pat ≠ [])
    (hm : matchAt buf pat a = true) (ha : start ≤ a)
    (huniq : ∀ q, matchAt buf pat q = true → q = a) :
    findAllFrom buf pat start = [a] := by
  rw [findAllFrom]
  cases h : findFrom buf pat start with
  | none => exact absurd (findFrom_none_spec h a ha (matchAt_le hne hm)) (by simp [hm])
  | some p =>
      obtain ⟨h1, _, h3⟩ := findFrom_some_spec h
      have hpa : p = a := huniq p h3
      subst hpa
      have : findAllFrom buf pat (p + 1) = [] := by
        cases hl : findAllFrom buf pat (p + 1) with
        | nil => rfl
        | cons b l =>
            have hb : b ∈ findAllFrom buf pat (p + 1) := by
              rw [hl]; exact List.mem_cons_self b l
            rw [findAllFrom_mem hne] at hb
            have := huniq b hb.2
            omega
      simp [this]

/-! ## Signature registry (`src/core/forensics/file_signatures.py`)

`FileSignature.header`/`footer` are `Optional[bytes]` in the source and are
tested only for Python truthiness (`if not sig.header`, `if signature.footer`),
under which `None` and `b""` behave identically; both are modelled as `[]`.
`max_size` defaults to 100 MiB when absent.  The registry is a `dict` whose
keys always equal the signature's `extension`, so it is modelled as a list of
`FileSignature` in the dict's (insertion) order. -/

structure FileSignature where
  extension : String
  description : String
  header : Bytes
  footer : Bytes
  max_size : Nat
deriving DecidableEq

/-- The `FILE_SIGNATURES` registry, in dict insertion order. -/
def FILE_SIGNATURES : List FileSignature :=
  [ ⟨"jpg", "JPEG Image", [0xFF, 0xD8, 0xFF], [0xFF, 0xD9], 50 * 1024 * 1024⟩,
    ⟨"png", "PNG Image", [0x89, 0x50, 0x4E, 0x47, 0x0D, 0x0A, 0x1A, 0x0A],
      [0x49, 0x45, 0x4E, 0x44, 0xAE, 0x42, 0x60, 0x82], 50 * 1024 * 1024⟩,
    ⟨"gif", "GIF Image", [0x47, 0x49, 0x46, 0x38, 0x37, 0x61], [0x00, 0x3B],
      20 * 1024 * 1024⟩,
    ⟨"pdf", "PDF Document", [0x25, 0x50, 0x44, 0x46], [0x25, 0x25, 0x45, 0x4F, 0x46],
      500 * 1024 * 1024⟩,
    ⟨"docx", "Microsoft Word Document", [0x50, 0x4B, 0x03, 0x04], [], 100 * 1024 * 1024⟩,
    ⟨"xlsx", "Microsoft Excel Document", [0x50, 0x4B, 0x03, 0x04], [], 100 * 1024 * 1024⟩,
    ⟨"zip", "ZIP Archive", [0x50, 0x4B, 0x03, 0x04], [0x50, 0x4B, 0x05, 0x06],
      1024 * 1024 * 1024⟩,
    ⟨"mp4", "MP4 Video", [0x00, 0x00, 0x00, 0x20, 0x66, 0x74, 0x79, 0x70], [],
      4096 * 1024 * 1024⟩,
    ⟨"exe", "Windows Executable", [0x4D, 0x5A], [], 500 * 1024 * 1024⟩,
    ⟨"txt", "Plain Text File", [], [], 10 * 1024 * 1024⟩ ]

/-- The `ALTERNATIVE_HEADERS` table (extension ↦ alternative header variants),
in dict insertion order. -/
def ALTERNATIVE_HEADERS : List (String × List Bytes) :=
  [ ("gif", [[0x47, 0x49, 0x46, 0x38, 0x37, 0x61], [0x47, 0x49, 0x46, 0x38, 0x39, 0x61]]),
    ("jpg", [[0xFF, 0xD8, 0xFF, 0xE0], [0xFF, 0xD8, 0xFF, 0xE1], [0xFF, 0xD8, 0xFF, 0xE8]]),
    ("docx", [[0x50, 0x4B, 0x03, 0x04, 0x14, 0x00, 0x06, 0x00]]),
    ("xlsx", [[0x50, 0x4B, 0x03, 0x04, 0x14, 0x00, 0x06, 0x00]]) ]

/-- First loop of `identify_file_type`: the first registry entry whose (truthy)
primary header is a prefix of the checked data. -/
def firstSigMatch (sigs : List FileSignature) (check : Bytes) : Option String :=
  match sigs with
  | [] => none
  | sg :: rest =>
      if sg.header ≠ [] ∧ sg.header.isPrefixOf check then some sg.extension
      else firstSigMatch rest check

/-- Second loop of `identify_file_type`: the first alternative-headers entry
one of whose variants is a prefix of the checked data. -/
def firstAltMatch (table : List (String × List Bytes)) (check : Bytes) : Option String :=
  match table with
  | [] => none
  | (ext, hs) :: rest =>
      if hs.any (fun h => h.isPrefixOf check) then some ext
      else firstAltMatch rest check

/-- `identify_file_type(data, size_limit)`: primary headers first, then the
alternative-headers table, then the printable-ASCII text heuristic. -/
def identify_file_type (data : Bytes) (size_limit : Nat := 512) : Option String :=
  let check := data.take size_limit
  match firstSigMatch FILE_SIGNATURES check with
  | some ext => some ext
  | none =>
      match firstAltMatch ALTERNATIVE_HEADERS check with
      | some ext => some ext
      | none =>
          if (check.take 100).all (fun b => (32 ≤ b && b < 127) || b == 9 || b == 10 || b == 13)
          then some "txt" else none

/-! ## The carving engine (`src/core/forensics/file_carver.py`)

`BasicFileCarver.carve_files` reads the image in 1 MiB chunks, keeps the last
1 KiB of the previous combined buffer (`buffer = buffer[-1024:] + chunk`),
finds **all** occurrences of each signature's primary header in the combined
buffer (advancing one byte past each match), converts each match position to
an absolute image offset with
`file_offset = offset + header_pos - (len(buffer) - len(chunk))`, and attempts
`_carve_single_file` at every hit.  The image is modelled by its byte list;
`img_info.read(offset, n)` is `seg img offset (offset + n)` (short reads at
end-of-image return fewer bytes; reads past the end return `b""`). -/

/-- `chunk_size = 1024 * 1024  # 1MB chunks` in `carve_files`. -/
def scan_chunk_size : Nat := 1024 * 1024

/-- The chunked header-scan loop of `carve_files`: returns, in order, one
`(signature, absolute offset)` pair per header hit (= per attempted carve).
`offset + p - (len buffer2 - len chunk)` is the source's `file_offset`
expression; it is written with truncating `Nat` subtraction, which agrees with
the source's integer arithmetic on every reachable iteration (the retained
tail is empty in the first iteration and of length at most `1024 ≤ offset`
afterwards). -/
def carve_files_loop (sigs : List FileSignature) (img : Bytes)
    (offset : Nat) (buffer : Bytes) : List (FileSignature × Nat) :=
  if _h : offset < img.length then
    let chunk := seg img offset (offset + scan_chunk_size)
    if chunk = [] then []
    else
      let buffer2 := lastN 1024 buffer ++ chunk
      (sigs.flatMap fun sg =>
        if sg.header = [] then []
        else (findAllFrom buffer2 sg.header 0).map
          fun p => (sg, offset + p - (buffer2.length - chunk.length)))
      ++ carve_files_loop sigs img (offset + scan_chunk_size) buffer2
  else []
termination_by img.length - offset
decreasing_by
  simp only [scan_chunk_size]
  omega

/-- The whole header scan of a carving run (loop started with an empty
buffer at offset 0). -/
def carve_files_scan (sigs : List FileSignature) (img : Bytes) :
    List (FileSignature × Nat) :=
  carve_files_loop sigs img 0 []

/-- One record of `BasicFileCarver._carve_single_file` (the fields derived
from the carved bytes; filename/output path/hash/wall-clock timestamp are
environment-dependent presentation of the same data and are not modelled). -/
structure CarvedFile where
  data : Bytes
  offset : Nat
  footer_found : Bool
deriving DecidableEq

/-- The read-accumulate loop of `_carve_single_file`: starting at
`current_offset` with `file_data` accumulated so far, read forward in
sub-chunks of `min(1024*1024, max_size - len(file_data))` until the footer is
found (truncate just past it, flag `true`), the data reaches `max_size`,
`current_offset` reaches `max_offset`, or a read returns no bytes.  Returns
the accumulated `file_data` and the `found_footer` flag. -/
def carveLoop (sg : FileSignature) (img : Bytes) (max_offset : Nat)
    (current_offset : Nat) (file_data : Bytes) : Bytes × Bool :=
  if _h : current_offset < max_offset ∧ file_data.length < sg.max_size then
    let csize := min (1024 * 1024) (sg.max_size - file_data.length)
    let chunk := seg img current_offset (current_offset + csize)
    if chunk = [] then (file_data, false)
    else
      let fd2 := file_data ++ chunk
      if sg.footer ≠ [] then
        match findFrom fd2 sg.footer 0 with
        | some fp => (fd2.take (fp + sg.footer.length), true)
        | none => carveLoop sg img max_offset (current_offset + csize) fd2
      else carveLoop sg img max_offset (current_offset + csize) fd2
  else (file_data, false)
termination_by max_offset - current_offset
decreasing_by
  · omega
  · omega

/-- `_carve_single_file`: run the read loop from the hit offset with empty
data, then discard the candidate when the accumulated data is shorter than
512 bytes, otherwise emit the record. -/
def carve_single_file (sg : FileSignature) (start_offset max_offset : Nat)
    (img : Bytes) : Option CarvedFile :=
  let r := carveLoop sg img max_offset start_offset []
  if r.1.length < 512 then none
  else some ⟨r.1, start_offset, r.2⟩

/-- `carve_files` end to end: every header hit of the scan is carved with
`_carve_single_file` (with `max_offset` the image size) and the successful
records are collected in order. -/
def carve_files (sigs : List FileSignature) (img : Bytes) : List CarvedFile :=
  (carve_files_scan sigs img).filterMap fun so =>
    carve_single_file so.1 so.2 img.length img


theorem carve_files_loop_stop (sigs : List FileSignature) (img : Bytes)
    (offset : Nat) (buffer : Bytes) (h : ¬ offset < img.length) :
    carve_files_loop sigs img offset buffer = [] := by
  rw [carve_files_loop, dif_neg h]

theorem carve_files_loop_step (sigs : List FileSignature) (img : Bytes)
    (offset : Nat) (buffer : Bytes) (h : offset < img.length) :
    carve_files_loop sigs img offset buffer =
      (sigs.flatMap fun sg =>
        if sg.header = [] then []
        else (findAllFrom (lastN 1024 buffer ++ seg img offset (offset + scan_chunk_size))
                sg.header 0).map
          fun p => (sg, offset + p - (lastN 1024 buffer).length))
      ++ carve_files_loop sigs img (offset + scan_chunk_size)
          (lastN 1024 buffer ++ seg img offset (offset + scan_chunk_size)) := by
  have hchunk : seg img offset (offset + scan_chunk_size) ≠ [] := by
    have hl := seg_length img offset (offset + scan_chunk_size)
    intro hnil
    rw [hnil] at hl
    simp only [List.length_nil, scan_chunk_size] at hl
    omega
  rw [carve_files_loop, dif_pos h]
  simp only [if_neg hchunk, List.length_append, Nat.add_sub_cancel]

set_option maxRecDepth 4000 in
theorem carve_scan_window (sg : FileSignature) (img : Bytes) (a k : Nat)
    (hhdr : sg.header ≠ []) (hlen1024 : sg.header.length ≤ 1024)
    (hmatch : matchAt img sg.header a = true)
    (huniq : ∀ q, matchAt img sg.header q = true → q = a)
    (hsp1 : a < (k + 1) * scan_chunk_size)
    (hsp2 : (k + 1) * scan_chunk_size < a + sg.header.length) :
    ∀ n i buf, img.length - i * scan_chunk_size = n →
      (i * scan_chunk_size < img.length →
        lastN 1024 buf = seg img (i * scan_chunk_size - 1024) (i * scan_chunk_size)) →
      carve_files_loop [sg] img (i * scan_chunk_size) buf =
        if i ≤ k + 1 then [(sg, a)] else [] := by
  have haL : a + sg.header.length ≤ img.length := matchAt_le hhdr hmatch
  intro n
  induction n using Nat.strong_induction_on with
  | _ n ih =>
    intro i buf hfuel hbuf
    by_cases hlt : i * scan_chunk_size < img.length
    · -- the loop performs iteration i
      rw [carve_files_loop_step _ _ _ _ hlt]
      have htail := hbuf hlt
      rw [htail]
      have hse : i * scan_chunk_size - 1024 ≤ i * scan_chunk_size := by omega
      have hee : i * scan_chunk_size ≤ i * scan_chunk_size + scan_chunk_size := by omega
      rw [seg_append img hse hee]
      have htlen : (seg img (i * scan_chunk_size - 1024) (i * scan_chunk_size)).length
          = i * scan_chunk_size - (i * scan_chunk_size - 1024) := by
        rw [seg_length]
        omega
      have hsucc : i * scan_chunk_size + scan_chunk_size = (i + 1) * scan_chunk_size := by
        rw [Nat.succ_mul]
      have hrec : carve_files_loop [sg] img (i * scan_chunk_size + scan_chunk_size)
          (seg img (i * scan_chunk_size - 1024) (i * scan_chunk_size + scan_chunk_size)) =
          if i + 1 ≤ k + 1 then [(sg, a)] else [] := by
        rw [hsucc]
        refine ih (img.length - (i + 1) * scan_chunk_size) ?_ (i + 1) _ rfl ?_
        · simp only [scan_chunk_size] at hfuel hlt ⊢
          omega
        · intro hlt'
          exact lastN_seg img
            (by simp only [scan_chunk_size] at hlt ⊢; omega)
            (by omega)
            (by simp only [scan_chunk_size] at hlt ⊢; omega)
      simp only [List.flatMap_cons, List.flatMap_nil, List.append_nil, if_neg hhdr]
      rcases Nat.lt_trichotomy i (k + 1) with hik | hik | hik
      · -- i ≤ k : this window ends before the header does
        have hnone : ∀ q, matchAt
            (seg img (i * scan_chunk_size - 1024) (i * scan_chunk_size + scan_chunk_size))
            sg.header q = false := by
          intro q
          by_contra hq
          rw [Bool.not_eq_false] at hq
          obtain ⟨hm', hle'⟩ := (matchAt_seg _ _ q hhdr).mp hq
          have hqa := huniq _ hm'
          simp only [scan_chunk_size] at hqa hle' hsp1 hsp2
          omega
        rw [findAllFrom_eq_nil 0 hhdr hnone, List.map_nil, List.nil_append,
          hrec, if_pos (show i + 1 ≤ k + 1 by omega), if_pos (show i ≤ k + 1 by omega)]
      · -- i = k + 1 : the hit window
        have hage : i * scan_chunk_size - 1024 ≤ a := by
          simp only [scan_chunk_size] at hsp2 ⊢
          omega
        have hmem : matchAt
            (seg img (i * scan_chunk_size - 1024) (i * scan_chunk_size + scan_chunk_size))
            sg.header (a - (i * scan_chunk_size - 1024)) = true := by
          rw [matchAt_seg _ _ _ hhdr]
          have harith : i * scan_chunk_size - 1024 + (a - (i * scan_chunk_size - 1024)) = a := by
            omega
          constructor
          · rw [harith]
            exact hmatch
          · simp only [scan_chunk_size] at hsp1 ⊢
            omega
        have huq : ∀ q, matchAt
            (seg img (i * scan_chunk_size - 1024) (i * scan_chunk_size + scan_chunk_size))
            sg.header q = true → q = a - (i * scan_chunk_size - 1024) := by
          intro q hq
          obtain ⟨hm', hle'⟩ := (matchAt_seg _ _ q hhdr).mp hq
          have hqa := huniq _ hm'
          omega
        rw [findAllFrom_unique hhdr hmem (Nat.zero_le _) huq, List.map_cons, List.map_nil,
          htlen, hrec, if_neg (show ¬ i + 1 ≤ k + 1 by omega), if_pos (show i ≤ k + 1 by omega)]
        have hoff : i * scan_chunk_size + (a - (i * scan_chunk_size - 1024)) -
            (i * scan_chunk_size - (i * scan_chunk_size - 1024)) = a := by
          simp only [scan_chunk_size] at hage hsp1 hsp2 ⊢
          omega
        rw [hoff, List.append_nil]
      · -- i ≥ k + 2 : the header lies strictly before this window
        have hnone : ∀ q, matchAt
            (seg img (i * scan_chunk_size - 1024) (i * scan_chunk_size + scan_chunk_size))
            sg.header q = false := by
          intro q
          by_contra hq
          rw [Bool.not_eq_false] at hq
          obtain ⟨hm', hle'⟩ := (matchAt_seg _ _ q hhdr).mp hq
          have hqa := huniq _ hm'
          simp only [scan_chunk_size] at hqa hsp1
          omega
        rw [findAllFrom_eq_nil 0 hhdr hnone, List.map_nil, List.nil_append,
          hrec, if_neg (show ¬ i + 1 ≤ k + 1 by omega), if_neg (show ¬ i ≤ k + 1 by omega)]
    · -- the loop has already passed the end of the image
      rw [carve_files_loop_stop _ _ _ _ hlt]
      rw [if_neg]
      intro hik
      simp only [scan_chunk_size] at hlt hsp2
      omega


theorem findFrom_eq_none_of_no_match {buf pat : Bytes} (start : Nat)
    (h : ∀ q, matchAt buf pat q = false) : findFrom buf pat start = none := by
  cases hf : findFrom buf pat start with
  | none => rfl
  | some p => exact absurd (findFrom_some_spec hf).2.2 (by simp [h p])

theorem carveLoop_stop (sg : FileSignature) (img : Bytes) (maxo cur : Nat) (fd : Bytes)
    (h : ¬ (cur < maxo ∧ fd.length < sg.max_size)) :
    carveLoop sg img maxo cur fd = (fd, false) := by
  rw [carveLoop, dif_neg h]

theorem carveLoop_step_empty (sg : FileSignature) (img : Bytes) (maxo cur : Nat) (fd : Bytes)
    (h : cur < maxo ∧ fd.length < sg.max_size)
    (hchunk : seg img cur (cur + min (1024 * 1024) (sg.max_size - fd.length)) = []) :
    carveLoop sg img maxo cur fd = (fd, false) := by
  rw [carveLoop, dif_pos h]
  simp only [hchunk, if_pos]

theorem carveLoop_step_found (sg : FileSignature) (img : Bytes) (maxo cur : Nat) (fd : Bytes)
    (h : cur < maxo ∧ fd.length < sg.max_size)
    (hchunk : seg img cur (cur + min (1024 * 1024) (sg.max_size - fd.length)) ≠ [])
    (hfoot : sg.footer ≠ []) {fp : Nat}
    (hfp : findFrom (fd ++ seg img cur (cur + min (1024 * 1024) (sg.max_size - fd.length)))
        sg.footer 0 = some fp) :
    carveLoop sg img maxo cur fd =
      ((fd ++ seg img cur (cur + min (1024 * 1024) (sg.max_size - fd.length))).take
          (fp + sg.footer.length), true) := by
  rw [carveLoop, dif_pos h]
  simp only [if_neg hchunk, if_pos hfoot, hfp]

theorem carveLoop_step_next (sg : FileSignature) (img : Bytes) (maxo cur : Nat) (fd : Bytes)
    (h : cur < maxo ∧ fd.length < sg.max_size)
    (hchunk : seg img cur (cur + min (1024 * 1024) (sg.max_size - fd.length)) ≠ [])
    (hnf : sg.footer = [] ∨
      findFrom (fd ++ seg img cur (cur + min (1024 * 1024) (sg.max_size - fd.length)))
        sg.footer 0 = none) :
    carveLoop sg img maxo cur fd =
      carveLoop sg img maxo (cur + min (1024 * 1024) (sg.max_size - fd.length))
        (fd ++ seg img cur (cur + min (1024 * 1024) (sg.max_size - fd.length))) := by
  rw [carveLoop, dif_pos h]
  rcases hnf with hnil | hnone
  · simp only [if_neg hchunk, hnil]
    simp
  · simp only [if_neg hchunk, hnone]
    split
    · rfl
    · rfl

@[simp] theorem seg_zero (l : Bytes) (n : Nat) : seg l 0 n = l.take n := by
  simp [seg]

theorem matchAt_take {l pat : Bytes} (n p : Nat) (hne : pat ≠ []) :
    matchAt (l.take n) pat p = true ↔ (matchAt l pat p = true ∧ p + pat.length ≤ n) := by
  have h := matchAt_seg (l := l) 0 n p hne
  rw [seg_zero] at h
  simpa using h

theorem carveLoop_length_le (sg : FileSignature) (img : Bytes) (maxo : Nat) :
    ∀ n cur fd, maxo - cur = n → fd.length ≤ sg.max_size →
      (carveLoop sg img maxo cur fd).1.length ≤ sg.max_size := by
  intro n
  induction n using Nat.strong_induction_on with
  | _ n ih =>
    intro cur fd hfuel hlen
    by_cases h : cur < maxo ∧ fd.length < sg.max_size
    · by_cases hchunk :
        seg img cur (cur + min (1024 * 1024) (sg.max_size - fd.length)) = []
      · rw [carveLoop_step_empty _ _ _ _ _ h hchunk]
        exact hlen
      · have hchlen : (seg img cur (cur + min (1024 * 1024) (sg.max_size - fd.length))).length
            ≤ min (1024 * 1024) (sg.max_size - fd.length) := by
          rw [seg_length]
          omega
        have hfd2 : (fd ++ seg img cur
            (cur + min (1024 * 1024) (sg.max_size - fd.length))).length ≤ sg.max_size := by
          rw [List.length_append]
          omega
        by_cases hfoot : sg.footer = []
        · rw [carveLoop_step_next _ _ _ _ _ h hchunk (Or.inl hfoot)]
          exact ih (maxo - (cur + min (1024 * 1024) (sg.max_size - fd.length)))
            (by omega) _ _ rfl hfd2
        · cases hfp : findFrom
            (fd ++ seg img cur (cur + min (1024 * 1024) (sg.max_size - fd.length)))
            sg.footer 0 with
          | none =>
              rw [carveLoop_step_next _ _ _ _ _ h hchunk (Or.inr hfp)]
              exact ih (maxo - (cur + min (1024 * 1024) (sg.max_size - fd.length)))
                (by omega) _ _ rfl hfd2
          | some fp =>
              rw [carveLoop_step_found _ _ _ _ _ h hchunk hfoot hfp]
              simp only [List.length_take]
              omega
    · rw [carveLoop_stop _ _ _ _ _ h]
      exact hlen

theorem carveLoop_footer_found (sg : FileSignature) (img : Bytes) (maxo : Nat)
    (hfoot : sg.footer ≠ []) :
    ∀ n cur fd, maxo - cur = n →
      (carveLoop sg img maxo cur fd).2 = true →
      ∃ fp, findFrom (carveLoop sg img maxo cur fd).1 sg.footer 0 = some fp ∧
        (carveLoop sg img maxo cur fd).1.length = fp + sg.footer.length := by
  intro n
  induction n using Nat.strong_induction_on with
  | _ n ih =>
    intro cur fd hfuel htrue
    by_cases h : cur < maxo ∧ fd.length < sg.max_size
    · by_cases hchunk :
        seg img cur (cur + min (1024 * 1024) (sg.max_size - fd.length)) = []
      · rw [carveLoop_step_empty _ _ _ _ _ h hchunk] at htrue
        exact absurd htrue (by simp)
      · cases hfp : findFrom
          (fd ++ seg img cur (cur + min (1024 * 1024) (sg.max_size - fd.length)))
          sg.footer 0 with
        | none =>
            rw [carveLoop_step_next _ _ _ _ _ h hchunk (Or.inr hfp)] at htrue ⊢
            exact ih (maxo - (cur + min (1024 * 1024) (sg.max_size - fd.length)))
              (by omega) _ _ rfl htrue
        | some fp =>
            rw [carveLoop_step_found _ _ _ _ _ h hchunk hfoot hfp] at htrue ⊢
            obtain ⟨h0, hle, hm⟩ := findFrom_some_spec hfp
            have hmin := findFrom_min_spec hfp
            refine ⟨fp, ?_, ?_⟩
            · rw [findFrom_eq_some_iff hfoot]
              refine ⟨Nat.zero_le _, ?_, ?_⟩
              · exact (matchAt_take _ _ hfoot).mpr ⟨hm, le_refl _⟩
              · intro q _ hq
                by_contra hmq
                rw [Bool.not_eq_false] at hmq
                have := ((matchAt_take _ _ hfoot).mp hmq).1
                exact absurd this (by simp [hmin q (Nat.zero_le _) hq])
            · simp only [List.length_take]
              omega
    · rw [carveLoop_stop _ _ _ _ _ h] at htrue
      exact absurd htrue (by simp)

/-! ## Timestamp analysis (`src/core/forensics/timestamp_analyzer.py`)

`datetime` values are modelled as (seconds, microseconds) pairs with
lexicographic comparison; `replace(microsecond=0)` zeroes the microsecond
component.  `datetime.now()` (used only by the future-timestamp check) is
passed to the analysis functions as an explicit `now` argument.  The
human-readable `description` strings of anomalies and the `details` snapshot
of a result are presentation-only and are not modelled; an anomaly is its
`type` tag and `severity`.  The dict key `ts_key` of the pattern search is
`isoformat()` of the truncated datetime, which is injective on truncated
datetimes, so the truncated datetime itself is used as the key. -/

/-- A `datetime`: whole seconds and a sub-second microsecond component. -/
structure DT where
  sec : Nat
  micro : Nat
deriving DecidableEq

/-- `datetime` comparison `a < b` (lexicographic). -/
def DT.lt (a b : DT) : Bool := a.sec < b.sec || (a.sec == b.sec && a.micro < b.micro)

/-- `t.replace(microsecond=0)`. -/
def DT.truncSec (t : DT) : DT := ⟨t.sec, 0⟩

/-- `t + timedelta(days=1)`. -/
def DT.addDay (t : DT) : DT := ⟨t.sec + 86400, t.micro⟩

/-- The fields of `FileEntry` (src/core/interfaces/image_parser.py) consumed
by the timestamp analyzer (`name`, `size`, `is_deleted`, `mft_entry`,
`parent_mft`, `attributes` and `children` play no part in any analysed
behaviour here). -/
structure FileEntry where
  path : String
  is_directory : Bool
  created_time : Option DT
  modified_time : Option DT
  accessed_time : Option DT
deriving DecidableEq

/-- An anomaly record: its `type` tag and `severity` level. -/
structure Anomaly where
  type : String
  severity : String
deriving DecidableEq

/-- The per-file result of `analyze_timestamps`. -/
structure AnalysisResult where
  file_path : String
  anomalies : List Anomaly
  confidence : ℚ
deriving DecidableEq

/-- `_check_identical_timestamps`: all present timestamps agree once truncated
to whole seconds (at least two present). -/
def check_identical_timestamps (e : FileEntry) : Bool :=
  let timestamps := [e.created_time, e.modified_time, e.accessed_time].filterMap id
  if timestamps.length < 2 then false
  else
    match timestamps with
    | [] => false
    | t0 :: rest => rest.all (fun t => t.truncSec == t0.truncSec)

/-- `_check_timestamp_order`: created strictly after modified. -/
def check_timestamp_order (e : FileEntry) : Option Anomaly :=
  match e.created_time, e.modified_time with
  | some c, some m => if DT.lt m c then some ⟨"illogical_order", "medium"⟩ else none
  | _, _ => none

/-- `_check_timestamp_precision`: every present timestamp has zero
microseconds (at least two present). -/
def check_timestamp_precision (e : FileEntry) : Option Anomaly :=
  let timestamps := [e.created_time, e.modified_time, e.accessed_time].filterMap id
  if timestamps.all (fun t => t.micro == 0) && decide (2 ≤ timestamps.length)
  then some ⟨"zero_precision", "medium"⟩ else none

/-- `_check_future_timestamps`: some present timestamp lies more than one day
after `now`. -/
def check_future_timestamps (now : DT) (e : FileEntry) : Option Anomaly :=
  let future := ([e.created_time, e.modified_time, e.accessed_time].filterMap id).filter
    (fun t => DT.lt now.addDay t)
  if future.isEmpty then none else some ⟨"future_timestamp", "high"⟩

/-- `analyze_timestamps`: missing-timestamp early return, then the four
checks appending their anomalies and accumulating the confidence weights
0.4/0.3/0.2/0.5, capped at 1.0. -/
def analyze_timestamps (now : DT) (e : FileEntry) : AnalysisResult :=
  if ¬ (e.created_time.isSome ∧ e.modified_time.isSome ∧ e.accessed_time.isSome) then
    ⟨e.path, [⟨"missing_timestamps", "low"⟩], 0⟩
  else
    let a1 : List Anomaly :=
      if check_identical_timestamps e then [⟨"identical_timestamps", "high"⟩] else []
    let c1 : ℚ := if check_identical_timestamps e then 0.4 else 0
    let c2 : ℚ := if (check_timestamp_order e).isSome then 0.3 else 0
    let c3 : ℚ := if (check_timestamp_precision e).isSome then 0.2 else 0
    let c4 : ℚ := if (check_future_timestamps now e).isSome then 0.5 else 0
    ⟨e.path,
      a1 ++ (check_timestamp_order e).toList ++ (check_timestamp_precision e).toList ++
        (check_future_timestamps now e).toList,
      min (c1 + c2 + c3 + c4) 1⟩

/-- One `mass_timestamp` pattern of `_find_timestamp_patterns`. -/
structure TimestampPattern where
  type : String
  timestamp : DT
  file_count : Nat
  sample_files : List String
deriving DecidableEq

/-- `timestamp_groups[ts_key].append(entry.path)` with dict-creation on a new
key: insertion-ordered grouping. -/
def addToGroup (groups : List (DT × List String)) (k : DT) (p : String) :
    List (DT × List String) :=
  match groups with
  | [] => [(k, [p])]
  | (k', ps) :: rest =>
      if k' = k then (k', ps ++ [p]) :: rest else (k', ps) :: addToGroup rest k p

/-- The grouping loop of `_find_timestamp_patterns`: entries with a modified
timestamp, grouped by that timestamp truncated to seconds. -/
def timestamp_groups (entries : List FileEntry) : List (DT × List String) :=
  entries.foldl
    (fun gs e =>
      match e.modified_time with
      | some t => addToGroup gs t.truncSec e.path
      | none => gs) []

/-- `_find_timestamp_patterns`: every group of more than 3 files becomes a
`mass_timestamp` pattern carrying the member count and the first 5 paths. -/
def find_timestamp_patterns (entries : List FileEntry) : List TimestampPattern :=
  (timestamp_groups entries).filterMap fun g =>
    if 3 < g.2.length then some ⟨"mass_timestamp", g.1, g.2.length, g.2.take 5⟩ else none

/-- The `statistics` block of `analyze_directory`. -/
structure DirStatistics where
  average_confidence : ℚ
  max_confidence : ℚ
  files_with_anomalies : Nat
deriving DecidableEq

/-- The result of `analyze_directory` (`none` statistics models the empty
dict left when no file was analysed). -/
structure DirAnalysis where
  total_files : Nat
  suspicious_files : List AnalysisResult
  patterns : List TimestampPattern
  statistics : Option DirStatistics
deriving DecidableEq

/-- Python `max(xs)` (only applied to non-empty lists in the source). -/
def pyMax : List ℚ → ℚ
  | [] => 0
  | x :: xs => xs.foldl max x

/-- `statistics.mean` (exact rational mean, as Python's `statistics.mean`
computes before converting to float). -/
def pyMean (xs : List ℚ) : ℚ := xs.sum / xs.length

/-- `analyze_directory`: analyse every non-directory entry, collect the
results with at least one anomaly as suspicious, search for patterns, and
(when anything was analysed) report mean/max of the confidence scores of
**all** analysed files plus the suspicious count. -/
def analyze_directory (now : DT) (entries : List FileEntry) : DirAnalysis :=
  let file_results := (entries.filter (fun e => !e.is_directory)).map (analyze_timestamps now)
  let suspicious := file_results.filter (fun r => !r.anomalies.isEmpty)
  let stats : Option DirStatistics :=
    if file_results.isEmpty then none
    else
      let confidence_scores := file_results.map (·.confidence)
      some ⟨if confidence_scores.isEmpty then 0 else pyMean confidence_scores,
            if confidence_scores.isEmpty then 0 else pyMax confidence_scores,
            suspicious.length⟩
  ⟨entries.length, suspicious, find_timestamp_patterns entries, stats⟩

/-! ## Hash verification (`src/core/forensics/hash_verifier.py`)

The digest family itself (`hashlib.new(alg)` / `hexdigest`) is passed to the
hash functions as an explicit function parameter `digest`: the analysed
behaviour is which algorithms produce result entries, not the digest
values.  Python dicts keyed by algorithm name are modelled as
insertion-ordered association lists with overwrite-on-existing-key. -/

def SUPPORTED_ALGORITHMS : List String := ["md5", "sha1", "sha256", "sha512"]

/-- `str.lower()` (the algorithm names are ASCII). -/
def pyLower (s : String) : String := String.mk (s.data.map Char.toLower)

/-- Python dict assignment `d[k] = v`: overwrite in place or append. -/
def dictInsert (d : List (String × String)) (k v : String) : List (String × String) :=
  match d with
  | [] => [(k, v)]
  | (k', v') :: rest => if k' = k then (k, v) :: rest else (k', v') :: dictInsert rest k v

/-- Python dict lookup `d.get(k)`. -/
def dictGet (d : List (String × String)) (k : String) : Option String :=
  match d with
  | [] => none
  | (k', v) :: rest => if k' = k then some v else dictGet rest k

/-- The algorithm validation common to `calculate_file_hash` and
`calculate_data_hash`:
`[alg.lower() for alg in algorithms if alg.lower() in SUPPORTED_ALGORITHMS]`,
with the default `['md5', 'sha256']` when `algorithms` is `None`. -/
def validated_algorithms (algorithms : Option (List String)) : List String :=
  ((algorithms.getD ["md5", "sha256"]).filter
    (fun a => SUPPORTED_ALGORITHMS.contains (pyLower a))).map pyLower

/-- `calculate_data_hash(data, algorithms)`: one result-dict entry per
validated algorithm. -/
def calculate_data_hash (digest : String → Bytes → String) (data : Bytes)
    (algorithms : Option (List String)) : List (String × String) :=
  (validated_algorithms algorithms).foldl
    (fun results alg => dictInsert results alg (digest alg data)) []

/-- `calculate_file_hash(file_path, algorithms)` over an explicit file system
`fs` (path ↦ content): a missing file raises `FileNotFoundError`
(`Except.error`); otherwise the chunked streaming update over the file equals
hashing the whole content, one hasher (hence one result entry) per validated
algorithm. -/
def calculate_file_hash (digest : String → Bytes → String) (fs : String → Option Bytes)
    (file_path : String) (algorithms : Option (List String)) :
    Except String (List (String × String)) :=
  match fs file_path with
  | none => .error ("File not found: " ++ file_path)
  | some data =>
      .ok ((validated_algorithms algorithms).foldl
        (fun results alg => dictInsert results alg (digest alg data)) [])

/-- One row of the `file_hashes` table. -/
structure HashRecord where
  file_path : String
  file_size : Nat
  md5_hash : Option String
  sha1_hash : Option String
  sha256_hash : Option String
  sha512_hash : Option String
  calculated_at : String
  source_type : String
deriving DecidableEq

/-- `store_file_hash`: `INSERT OR REPLACE INTO file_hashes ...` against the
table of `_init_hash_database`, whose `UNIQUE(file_path, source_type)`
constraint makes SQLite delete every row conflicting on that key before
inserting the new row.  The table is the list of its rows in insertion
order. -/
def store_file_hash (db : List HashRecord) (r : HashRecord) : List HashRecord :=
  db.filter (fun x => !(x.file_path == r.file_path && x.source_type == r.source_type)) ++ [r]

/-- The rows selected by `WHERE file_path = ? AND source_type = ?`
(`get_file_hash`). -/
def records_for (db : List HashRecord) (p st : String) : List HashRecord :=
  db.filter (fun x => x.file_path == p && x.source_type == st)

/-! ## PyTSK parser (`src/core/parsers/pytsk_parser.py`) -/

/-- One entry of `get_partitions`' result. -/
structure Partition where
  index : Nat
  type : String
  start : Nat
  length : Nat
  flags : Nat
deriving DecidableEq

/-- A `pytsk3` volume-system partition as iterated by `get_partitions`. -/
structure RawPartition where
  addr : Nat
  desc : String
  start : Nat
  len : Nat
  flags : Nat
deriving DecidableEq

/-- `pytsk3.TSK_VS_PART_FLAG_ALLOC`. -/
def TSK_VS_PART_FLAG_ALLOC : Nat := 1

/-- `get_partitions` on an opened image of `img_size` bytes: iterating the
volume system converts each allocated (`len > 0`) entry, sector counts scaled
by 512; when opening the volume system raises (`vol = none`), a single
synthetic whole-disk partition `{index 0, start 0, length img_size}` is
returned. -/
def get_partitions (img_size : Nat) (vol : Option (List RawPartition)) : List Partition :=
  match vol with
  | some parts =>
      (parts.filter (fun p => decide (0 < p.len))).map
        (fun p => ⟨p.addr, p.desc, p.start * 512, p.len * 512, p.flags⟩)
  | none => [⟨0, "Whole Disk", 0, img_size, TSK_VS_PART_FLAG_ALLOC⟩]

/-- A file-system subtree as `walk_file_system` traverses it: a directory
entry's name, its flags, and its child entries. -/
inductive FSNode where
  | node (name : String) (is_directory : Bool) (is_deleted : Bool) (children : List FSNode)

/-- The fields of an entry yielded by the walk that the recursion decision
reads. -/
structure WalkEntry where
  path : String
  is_directory : Bool
  is_deleted : Bool
deriving DecidableEq

/-- `f"{path.rstrip('/')}/{entry.name}"` of `_create_file_entry` /
`walk_directory`. -/
def childPath (parent name : String) : String :=
  parent.dropRightWhile (· == '/') ++ "/" ++ name

mutual

/-- `walk_directory` at one listed entry: yield it, then recurse into it
exactly when `entry.is_directory and not entry.is_deleted`. -/
def walkNode (parent : String) : FSNode → List WalkEntry
  | .node name dir del children =>
      ⟨childPath parent name, dir, del⟩ ::
        (if dir && !del then walkChildren (childPath parent name) children else [])

/-- `walk_directory`'s loop over the entries of one directory. -/
def walkChildren (parent : String) : List FSNode → List WalkEntry
  | [] => []
  | c :: cs => walkNode parent c ++ walkChildren parent cs

end

/-- `walk_file_system`: the walk starts at the root directory `"/"`. -/
def walk_file_system (root : List FSNode) : List WalkEntry := walkChildren "/" root


/-- The `gif` entry of the registry (primary header `GIF87a`). -/
def gifSignature : FileSignature :=
  ⟨"gif", "GIF Image", [0x47, 0x49, 0x46, 0x38, 0x37, 0x61], [0x00, 0x3B], 20 * 1024 * 1024⟩

theorem gifSignature_mem : gifSignature ∈ FILE_SIGNATURES := by decide

/-- A pattern placed after `n` padding bytes matches there. -/
theorem matchAt_prefix_pad (pat rest : Bytes) (n : Nat) :
    matchAt (List.replicate n 0 ++ (pat ++ rest)) pat n = true := by
  unfold matchAt
  rw [List.drop_left' (by simp), List.take_left' rfl]
  simp

/-- A match determines the underlying bytes position by position. -/
theorem matchAt_getElem? {l pat : Bytes} {q : Nat} (h : matchAt l pat q = true) :
    ∀ j, j < pat.length → l[q + j]? = pat[j]? := by
  intro j hj
  have h' : (l.drop q).take pat.length = pat := by simpa [matchAt] using h
  have h2 : ((l.drop q).take pat.length)[j]? = pat[j]? := by rw [h']
  rw [List.getElem?_take, if_pos hj, List.getElem?_drop] at h2
  exact h2

/-- Uniqueness of a match position can be checked below the buffer length. -/
theorem matchAt_unique_of_bounded {l pat : Bytes} {a : Nat} (hne : pat ≠ [])
    (hb : ∀ q, q < l.length → matchAt l pat q = true → q = a) :
    ∀ q, matchAt l pat q = true → q = a := by
  intro q hq
  have h1 := matchAt_le hne hq
  have h2 : 0 < pat.length := List.length_pos.mpr hne
  exact hb q (by omega) hq

/-- Absence of a match can be checked below the buffer length. -/
theorem matchAt_false_of_bounded {l pat : Bytes} (hne : pat ≠ [])
    (hb : ∀ q, q < l.length → matchAt l pat q = false) :
    ∀ q, matchAt l pat q = false := by
  intro q
  by_contra hq
  rw [Bool.not_eq_false] at hq
  have h1 := matchAt_le hne hq
  have h2 : 0 < pat.length := List.length_pos.mpr hne
  exact absurd hq (by simp [hb q (by omega)])

/-- In `0^n ++ GIF87a ++ 0^m` the GIF87a header occurs only at position `n`
(its six byte values are pairwise distinct and none is the padding byte). -/
theorem gif_match_unique (n m q : Nat)
    (h : matchAt (List.replicate n 0 ++ (gifSignature.header ++ List.replicate m 0))
      gifSignature.header q = true) : q = n := by
  have h0 := matchAt_getElem? h 0 (by decide)
  rw [Nat.add_zero] at h0
  have hhd : gifSignature.header[0]? = some 0x47 := rfl
  rw [hhd] at h0
  rcases Nat.lt_or_ge q n with hlt | hge
  · rw [List.getElem?_append, if_pos (by simpa using hlt), List.getElem?_replicate,
      if_pos hlt] at h0
    exact absurd h0 (by decide)
  · by_contra hne
    rw [List.getElem?_append_right (by simpa using hge), List.length_replicate] at h0
    have hd1 : 1 ≤ q - n := by omega
    rcases Nat.lt_or_ge (q - n) 6 with hd6 | hd6
    · rw [List.getElem?_append, if_pos (show q - n < gifSignature.header.length by
        simpa [gifSignature] using hd6)] at h0
      interval_cases hqn : q - n <;> exact absurd h0 (by decide)
    · rw [List.getElem?_append_right (show gifSignature.header.length ≤ q - n by
        simpa [gifSignature] using hd6), List.getElem?_replicate] at h0
      split at h0 <;> exact absurd h0 (by decide)

/-- **C3.** For every image in which a configured signature's header occurs
exactly once, placed so that it spans the boundary between two adjacent 1 MiB
scan chunks (it starts before byte `(k+1)·2²⁰` and ends after it), the carving
scan produces exactly one header hit for that signature, and the computed
image offset of the hit — chunk base offset plus match position in the
combined buffer minus the retained-tail length — equals the true absolute
offset `a` of the header. -/
theorem claim_C3_chunk_boundary_hit (sg : FileSignature) (img : Bytes) (a k : Nat)
    (hhdr : sg.header ≠ []) (hlen1024 : sg.header.length ≤ 1024)
    (hmatch : matchAt img sg.header a = true)
    (huniq : ∀ q, matchAt img sg.header q = true → q = a)
    (hsp1 : a < (k + 1) * scan_chunk_size)
    (hsp2 : (k + 1) * scan_chunk_size < a + sg.header.length) :
    carve_files_scan [sg] img = [(sg, a)] := by
  have hinv : 0 * scan_chunk_size < img.length →
      lastN 1024 ([] : Bytes) = seg img (0 * scan_chunk_size - 1024) (0 * scan_chunk_size) := by
    intro _
    simp [lastN, seg]
  have h := carve_scan_window sg img a k hhdr hlen1024 hmatch huniq hsp1 hsp2
    (img.length - 0 * scan_chunk_size) 0 [] rfl hinv
  rw [Nat.zero_mul, if_pos (Nat.zero_le _)] at h
  exact h

/-- C3 witness: the configured GIF signature header placed at offset
`2²⁰ - 1`, spanning the boundary between the first and second scan chunks of
an all-zero image, is hit exactly once at that offset. -/
theorem claim_C3_witness :
    carve_files_scan [gifSignature]
        (List.replicate (scan_chunk_size - 1) 0 ++
          (gifSignature.header ++ List.replicate 30 0)) =
      [(gifSignature, scan_chunk_size - 1)] :=
  claim_C3_chunk_boundary_hit gifSignature _ (scan_chunk_size - 1) 0
    (by decide) (by decide)
    (matchAt_prefix_pad gifSignature.header (List.replicate 30 0) (scan_chunk_size - 1))
    (fun q hq => gif_match_unique (scan_chunk_size - 1) 30 q hq)
    (by decide) (by decide)

/-- `GIF89a`, the alternative gif header variant of `ALTERNATIVE_HEADERS`. -/
def gif89Bytes : Bytes := [0x47, 0x49, 0x46, 0x38, 0x39, 0x61]

/-- A small image whose only signature-like region is a `GIF89a` variant. -/
def img89 : Bytes := [0, 0, 0] ++ (gif89Bytes ++ List.replicate 20 0)

/-- The same image with the primary `GIF87a` header instead. -/
def img87 : Bytes := [0, 0, 0] ++ (gifSignature.header ++ List.replicate 20 0)

/-- The scan of `img89` for the gif signature: no hit (the primary header
`GIF87a` occurs nowhere in it). -/
theorem scan_img89_empty : carve_files_scan [gifSignature] img89 = [] := by
  have hno : ∀ q, matchAt img89 gifSignature.header q = false :=
    matchAt_false_of_bounded (by decide) (by decide)
  have hbuf : lastN 1024 ([] : Bytes) ++ seg img89 0 (0 + scan_chunk_size) = img89 := by decide
  rw [carve_files_scan, carve_files_loop_step _ _ _ _ (by decide), hbuf,
    List.flatMap_cons, List.flatMap_nil, List.append_nil, if_neg (by decide),
    findAllFrom_eq_nil 0 (by decide) hno, List.map_nil, List.nil_append,
    carve_files_loop_stop _ _ _ _ (by decide)]

/-- The scan of `img87` for the gif signature: exactly one hit, at offset 3. -/
theorem scan_img87_single : carve_files_scan [gifSignature] img87 = [(gifSignature, 3)] := by
  have huniq : ∀ q, matchAt img87 gifSignature.header q = true → q = 3 :=
    matchAt_unique_of_bounded (by decide) (by decide)
  have hbuf : lastN 1024 ([] : Bytes) ++ seg img87 0 (0 + scan_chunk_size) = img87 := by decide
  rw [carve_files_scan, carve_files_loop_step _ _ _ _ (by decide), hbuf,
    List.flatMap_cons, List.flatMap_nil, List.append_nil, if_neg (by decide),
    findAllFrom_unique (by decide) (show matchAt img87 gifSignature.header 3 = true by decide)
      (Nat.zero_le 3) huniq,
    List.map_cons, List.map_nil,
    carve_files_loop_stop _ _ _ _ (by decide), List.append_nil]
  decide

/-- **C1 counterexample.** The concrete image `img89` contains a region that
matches only the alternative gif variant `GIF89a` (as `identify_file_type`
confirms) and no primary header, yet the carving scan produces **no** header
hit for the gif signature and no carve is attempted: the alternative-headers
table is not searched during carving. -/
theorem claim_C1_counterexample :
    carve_files_scan [gifSignature] img89 = [] ∧
    carve_files [gifSignature] img89 = [] ∧
    identify_file_type (gif89Bytes ++ List.replicate 20 0) = some "gif" := by
  refine ⟨scan_img89_empty, ?_, by decide⟩
  rw [carve_files, scan_img89_empty, List.filterMap_nil]

/-- **C1 (amended).** During a carving run the header scan searches each chunk
buffer only for every configured signature's **primary** header; the
alternative-headers table is not consulted by the carver (it is used only by
`identify_file_type`).  Concretely: the scan hits the primary `GIF87a` header
(at its true offset), produces no hit for an image whose only signature-like
region is the `GIF89a` alternative variant, while `identify_file_type` does
recognise that region as gif via the alternative-headers table. -/
theorem claim_C1_primary_header_only :
    carve_files_scan [gifSignature] img87 = [(gifSignature, 3)] ∧
    carve_files_scan [gifSignature] img89 = [] ∧
    identify_file_type (gif89Bytes ++ List.replicate 20 0) = some "gif" :=
  ⟨scan_img87_single, scan_img89_empty, by decide⟩

/-- Size bounds of one emitted record: at least the 512-byte minimum, at most
the signature's cap. -/
theorem carve_single_file_size_bounds (sg : FileSignature) (start_offset max_offset : Nat)
    (img : Bytes) (cf : CarvedFile)
    (hcf : carve_single_file sg start_offset max_offset img = some cf) :
    512 ≤ cf.data.length ∧ cf.data.length ≤ sg.max_size := by
  simp only [carve_single_file] at hcf
  split at hcf
  · exact absurd hcf (by simp)
  · rename_i h512
    cases hcf
    constructor
    · exact Nat.le_of_not_lt h512
    · exact carveLoop_length_le sg img max_offset (max_offset - start_offset)
        start_offset [] rfl (Nat.zero_le _)

/-- **C4.** Every `CarvedFile` record `_carve_single_file` emits has a size of
at least 512 bytes and at most the matched signature's `max_size` cap, for
every signature, start offset, bound and image; a candidate whose accumulated
data is shorter than 512 bytes yields no record; and consequently every
record appended during a whole carving run is at least 512 bytes long. -/
theorem claim_C4_size_bounds (sigs : List FileSignature) (sg : FileSignature)
    (start_offset max_offset : Nat) (img : Bytes) :
    (∀ cf, carve_single_file sg start_offset max_offset img = some cf →
      512 ≤ cf.data.length ∧ cf.data.length ≤ sg.max_size) ∧
    ((carveLoop sg img max_offset start_offset []).1.length < 512 →
      carve_single_file sg start_offset max_offset img = none) ∧
    (∀ cf ∈ carve_files sigs img, 512 ≤ cf.data.length) := by
  refine ⟨fun cf hcf => carve_single_file_size_bounds sg start_offset max_offset img cf hcf,
    fun h512 => ?_, fun cf hcf => ?_⟩
  · simp only [carve_single_file]
    rw [if_pos h512]
  · rw [carve_files] at hcf
    obtain ⟨so, _, h⟩ := List.mem_filterMap.mp hcf
    exact (carve_single_file_size_bounds so.1 so.2 img.length img cf h).1

/-- A fixed test signature with footer `07 07` and `max_size` 700, and two
test images: one starting with the footer, one containing no footer byte. -/
def sigF : FileSignature := ⟨"bin", "footer test", [0x01], [0x07, 0x07], 700⟩

def imgFA : Bytes := [0x07, 0x07] ++ List.replicate 600 0

def imgFB : Bytes := List.replicate 520 1

set_option maxRecDepth 8000 in
/-- C4 witness: a 600-byte all-zero candidate against a footer-less cap-1000
signature is emitted with its size between 512 and the cap. -/
theorem claim_C4_witness :
    512 ≤ (List.replicate 600 (0 : Nat)).length ∧
      (List.replicate 600 (0 : Nat)).length ≤ 1000 := by
  have hrun : carveLoop ⟨"bin", "plain test", [0x01], [], 1000⟩
      (List.replicate 600 0) 600 0 [] = (List.replicate 600 0, false) := by
    rw [carveLoop_step_next _ _ _ _ _ (by decide) (by decide) (Or.inl rfl),
      carveLoop_stop _ _ _ _ _ (by decide)]
    decide
  have hsome : carve_single_file ⟨"bin", "plain test", [0x01], [], 1000⟩ 0 600
      (List.replicate 600 0) = some ⟨List.replicate 600 0, 0, false⟩ := by
    simp only [carve_single_file, hrun]
    decide
  exact (claim_C4_size_bounds [] ⟨"bin", "plain test", [0x01], [], 1000⟩ 0 600
    (List.replicate 600 0)).1 ⟨List.replicate 600 0, 0, false⟩ hsome

/-- **C6.** For every carve whose signature has a configured (truthy) footer:
if the footer does not occur in the accumulated data, the candidate is still
emitted whenever it reaches 512 bytes, with `footer_found = false`; and
whenever `found_footer` is set, the accumulated data has been truncated to end
immediately after the first footer occurrence. -/
theorem claim_C6_footer_behaviour (sg : FileSignature) (start_offset max_offset : Nat)
    (img : Bytes) (hf : sg.footer ≠ []) :
    ((∀ q, matchAt (carveLoop sg img max_offset start_offset []).1 sg.footer q = false) →
      (carveLoop sg img max_offset start_offset []).2 = false ∧
      (512 ≤ (carveLoop sg img max_offset start_offset []).1.length →
        carve_single_file sg start_offset max_offset img =
          some ⟨(carveLoop sg img max_offset start_offset []).1, start_offset, false⟩)) ∧
    ((carveLoop sg img max_offset start_offset []).2 = true →
      ∃ fp, findFrom (carveLoop sg img max_offset start_offset []).1 sg.footer 0 = some fp ∧
        (carveLoop sg img max_offset start_offset []).1.length = fp + sg.footer.length) := by
  have hfound := carveLoop_footer_found sg img max_offset hf
    (max_offset - start_offset) start_offset [] rfl
  constructor
  · intro hno
    have hfalse : (carveLoop sg img max_offset start_offset []).2 = false := by
      by_contra hb
      rw [Bool.not_eq_false] at hb
      obtain ⟨fp, hfp, _⟩ := hfound hb
      exact absurd (findFrom_some_spec hfp).2.2 (by simp [hno fp])
    refine ⟨hfalse, fun h512 => ?_⟩
    simp only [carve_single_file]
    rw [if_neg (by omega), hfalse]
  · exact hfound

set_option maxRecDepth 8000 in
/-- C6 witness: with footer `07 07`, an image whose bytes are all `1` carves
to a 520-byte record with `footer_found = false`, while an image starting
with the footer truncates immediately after it with the flag set. -/
theorem claim_C6_witness :
    ((carveLoop sigF imgFB 520 0 []).2 = false ∧
      (512 ≤ (carveLoop sigF imgFB 520 0 []).1.length →
        carve_single_file sigF 0 520 imgFB =
          some ⟨(carveLoop sigF imgFB 520 0 []).1, 0, false⟩)) ∧
    (∃ fp, findFrom (carveLoop sigF imgFA 602 0 []).1 sigF.footer 0 = some fp ∧
      (carveLoop sigF imgFA 602 0 []).1.length = fp + sigF.footer.length) := by
  constructor
  · have hnom : ∀ q, matchAt
        ([] ++ seg imgFB 0 (0 + min (1024 * 1024) (sigF.max_size - ([] : Bytes).length)))
        sigF.footer q = false :=
      matchAt_false_of_bounded (by decide) (by decide)
    have hrunB : carveLoop sigF imgFB 520 0 [] =
        ([] ++ seg imgFB 0 (0 + min (1024 * 1024) (sigF.max_size - ([] : Bytes).length)),
          false) := by
      rw [carveLoop_step_next _ _ _ _ _ (by decide) (by decide)
          (Or.inr (findFrom_eq_none_of_no_match 0 hnom)),
        carveLoop_stop _ _ _ _ _ (by decide)]
    refine (claim_C6_footer_behaviour sigF 0 520 imgFB (by decide)).1 ?_
    intro q
    rw [hrunB]
    exact hnom q
  · have hfp : findFrom
        ([] ++ seg imgFA 0 (0 + min (1024 * 1024) (sigF.max_size - ([] : Bytes).length)))
        sigF.footer 0 = some 0 := by
      rw [findFrom_eq_some_iff (by decide)]
      exact ⟨Nat.le_refl 0, by decide, fun q _ hlt => absurd hlt (by omega)⟩
    have hrunA : carveLoop sigF imgFA 602 0 [] =
        (([] ++ seg imgFA 0 (0 + min (1024 * 1024) (sigF.max_size - ([] : Bytes).length))).take
          (0 + sigF.footer.length), true) := by
      rw [carveLoop_step_found _ _ _ _ _ (by decide) (by decide) (by decide) hfp]
    refine (claim_C6_footer_behaviour sigF 0 602 imgFA (by decide)).2 ?_
    rw [hrunA]


/-- **C9.** For every opened image in which no partition table can be read
(the volume-system open fails), `get_partitions` returns exactly one
partition entry: index 0, start byte 0, and length the image's total byte
size — a synthetic whole-disk partition spanning the full image. -/
theorem claim_C9_whole_disk_fallback (img_size : Nat) :
    get_partitions img_size none =
      [⟨0, "Whole Disk", 0, img_size, TSK_VS_PART_FLAG_ALLOC⟩] ∧
    (get_partitions img_size none).length = 1 :=
  ⟨rfl, rfl⟩

/-- **C10.** The file-system walk yields deleted directory entries themselves
but never recurses into them: walking a deleted directory yields exactly its
own entry, regardless of its children; a non-deleted directory contributes its
entry followed by the walk of its children; a non-directory entry never
contributes children.  The final conjunct states the same for a full
`walk_file_system` whose root listing is a single deleted directory. -/
theorem claim_C10_no_descend_into_deleted (parent name : String)
    (children : List FSNode) (d : Bool) :
    walkNode parent (.node name true true children) =
      [⟨childPath parent name, true, true⟩] ∧
    walkNode parent (.node name true false children) =
      ⟨childPath parent name, true, false⟩ ::
        walkChildren (childPath parent name) children ∧
    walkNode parent (.node name false d children) =
      [⟨childPath parent name, false, d⟩] ∧
    walk_file_system [.node name true true children] =
      [⟨childPath "/" name, true, true⟩] := by
  refine ⟨?_, ?_, ?_, ?_⟩ <;> simp [walk_file_system, walkChildren, walkNode]

theorem records_for_store_self (db : List HashRecord) (r : HashRecord) :
    records_for (store_file_hash db r) r.file_path r.source_type = [r] := by
  unfold records_for store_file_hash
  rw [List.filter_append, List.filter_filter]
  have h1 : ∀ x : HashRecord,
      ((x.file_path == r.file_path && x.source_type == r.source_type) &&
        !(x.file_path == r.file_path && x.source_type == r.source_type)) = false := by
    intro x
    exact Bool.and_not_self _
  simp [h1]

theorem records_for_store_other (db : List HashRecord) (r : HashRecord) (p st : String)
    (h : ¬ (r.file_path = p ∧ r.source_type = st)) :
    records_for (store_file_hash db r) p st = records_for db p st := by
  unfold records_for store_file_hash
  rw [List.filter_append, List.filter_filter]
  have h1 : ∀ x : HashRecord,
      ((x.file_path == p && x.source_type == st) &&
        !(x.file_path == r.file_path && x.source_type == r.source_type)) =
      (x.file_path == p && x.source_type == st) := by
    intro x
    by_cases h2 : x.file_path = p ∧ x.source_type = st
    · have hx : ¬ (x.file_path = r.file_path ∧ x.source_type = r.source_type) := by
        intro hc
        exact h ⟨hc.1.symm.trans h2.1, hc.2.symm.trans h2.2⟩
      rw [h2.1, h2.2] at hx
      simp [h2.1, h2.2]
      exact not_and_or.mp hx
    · rcases not_and_or.mp h2 with h3 | h3 <;> simp [h3]
  rw [List.filter_congr (fun x _ => h1 x)]
  have h4 : (r.file_path == p && r.source_type == st) = false := by
    by_cases h5 : r.file_path = p
    · have h6 : ¬ r.source_type = st := fun hc => h ⟨h5, hc⟩
      simp [h5, h6]
    · simp [h5]
  simp [h4]

/-- **C7.** Storing hashes twice for the same `(file_path, source_type)` key
leaves exactly one record for that key in the hash store — the record of the
later computation; storing under a different `source_type` for the same path
leaves both records, each retrievable under its own key. -/
theorem claim_C7_upsert (db : List HashRecord) (r1 r2 : HashRecord) :
    (r1.file_path = r2.file_path → r1.source_type = r2.source_type →
      records_for (store_file_hash (store_file_hash db r1) r2)
        r2.file_path r2.source_type = [r2]) ∧
    (r1.file_path = r2.file_path → r1.source_type ≠ r2.source_type →
      records_for (store_file_hash (store_file_hash db r1) r2)
          r1.file_path r1.source_type = [r1] ∧
        records_for (store_file_hash (store_file_hash db r1) r2)
          r2.file_path r2.source_type = [r2]) := by
  constructor
  · intro _ _
    exact records_for_store_self _ r2
  · intro hp hs
    refine ⟨?_, records_for_store_self _ r2⟩
    have hne : ¬ (r2.file_path = r1.file_path ∧ r2.source_type = r1.source_type) :=
      fun hc => hs hc.2.symm
    rw [records_for_store_other _ r2 _ _ hne]
    exact records_for_store_self db r1


/-- C7 witness: two stores under the key `("/f", "file_system")` keep only the
second record; a store under `("/f", "carved")` coexists with it. -/
theorem claim_C7_witness :
    records_for
        (store_file_hash
          (store_file_hash [] ⟨"/f", 10, some "a", none, none, none, "t1", "file_system"⟩)
          ⟨"/f", 11, some "b", none, none, none, "t2", "file_system"⟩)
        "/f" "file_system" =
      [⟨"/f", 11, some "b", none, none, none, "t2", "file_system"⟩] ∧
    (records_for
        (store_file_hash
          (store_file_hash [] ⟨"/f", 10, some "a", none, none, none, "t1", "file_system"⟩)
          ⟨"/f", 12, some "c", none, none, none, "t3", "carved"⟩)
        "/f" "file_system" =
      [⟨"/f", 10, some "a", none, none, none, "t1", "file_system"⟩] ∧
    records_for
        (store_file_hash
          (store_file_hash [] ⟨"/f", 10, some "a", none, none, none, "t1", "file_system"⟩)
          ⟨"/f", 12, some "c", none, none, none, "t3", "carved"⟩)
        "/f" "carved" =
      [⟨"/f", 12, some "c", none, none, none, "t3", "carved"⟩]) :=
  ⟨(claim_C7_upsert [] ⟨"/f", 10, some "a", none, none, none, "t1", "file_system"⟩
      ⟨"/f", 11, some "b", none, none, none, "t2", "file_system"⟩).1 rfl rfl,
    (claim_C7_upsert [] ⟨"/f", 10, some "a", none, none, none, "t1", "file_system"⟩
      ⟨"/f", 12, some "c", none, none, none, "t3", "carved"⟩).2 rfl (by decide)⟩

theorem dictGet_insert (d : List (String × String)) (k v k' : String) :
    dictGet (dictInsert d k v) k' = if k' = k then some v else dictGet d k' := by
  induction d with
  | nil =>
      simp only [dictInsert, dictGet]
      by_cases h : k' = k
      · rw [if_pos h.symm, if_pos h]
      · rw [if_neg (fun hc => h hc.symm), if_neg h]
  | cons kv rest ih =>
      simp only [dictInsert]
      by_cases h1 : kv.1 = k
      · rw [if_pos h1]
        simp only [dictGet]
        by_cases h2 : k' = k
        · rw [if_pos h2.symm, if_pos h2]
        · rw [if_neg (fun hc => h2 hc.symm), if_neg h2,
            if_neg (fun hc : kv.1 = k' => h2 (hc.symm.trans h1))]
      · rw [if_neg h1]
        simp only [dictGet]
        by_cases h2 : kv.1 = k'
        · rw [if_pos h2, if_neg (fun hc => h1 (h2.trans hc)), if_pos h2]
        · rw [if_neg h2, ih]
          by_cases h3 : k' = k
          · rw [if_pos h3, if_pos h3]
          · rw [if_neg h3, if_neg h3, if_neg h2]

theorem dictGet_hash_fold (digest : String → Bytes → String) (data : Bytes)
    (algs : List String) (d : List (String × String)) (a : String) :
    dictGet (algs.foldl (fun results alg => dictInsert results alg (digest alg data)) d) a =
      if a ∈ algs then some (digest a data) else dictGet d a := by
  induction algs generalizing d with
  | nil => simp
  | cons x xs ih =>
      rw [List.foldl_cons, ih]
      by_cases hx : a ∈ xs
      · rw [if_pos hx, if_pos (List.mem_cons_of_mem x hx)]
      · rw [if_neg hx, dictGet_insert]
        by_cases ha : a = x
        · subst ha
          rw [if_pos rfl, if_pos (List.mem_cons_self a xs)]
        · rw [if_neg ha, if_neg (by simp [ha, hx])]

/-- Everything in `validated_algorithms` is a supported name, and a requested
algorithm with supported lower-cased form appears there. -/
theorem validated_algorithms_mem (algs : List String) (alg : String) :
    (alg ∈ algs → pyLower alg ∈ SUPPORTED_ALGORITHMS →
      pyLower alg ∈ validated_algorithms (some algs)) ∧
    (pyLower alg ∉ SUPPORTED_ALGORITHMS →
      pyLower alg ∉ validated_algorithms (some algs)) := by
  constructor
  · intro hmem hsup
    unfold validated_algorithms
    simp only [Option.getD_some]
    exact List.mem_map.mpr ⟨alg, List.mem_filter.mpr ⟨hmem, by
      simpa [List.contains_iff_exists_mem_beq] using
        List.elem_eq_true_of_mem hsup⟩, rfl⟩
  · intro hsup hc
    unfold validated_algorithms at hc
    simp only [Option.getD_some] at hc
    obtain ⟨b, hb, hlow⟩ := List.mem_map.mp hc
    have := (List.mem_filter.mp hb).2
    rw [hlow] at this
    exact hsup (by simpa using this)

/-- **C8.** For every requested algorithm list: both hash entry points return
a digest entry exactly for each requested algorithm whose lower-cased name is
one of md5/sha1/sha256/sha512 — the entry carries that algorithm's digest of
the data — while a requested algorithm outside the set yields no entry and no
error, and (for an existing file) `calculate_file_hash` returns the same
result dictionary as `calculate_data_hash` on the file's content. -/
theorem claim_C8_unsupported_dropped (digest : String → Bytes → String)
    (fs : String → Option Bytes) (path : String) (content data : Bytes)
    (algs : List String) (hfs : fs path = some content) :
    (∀ alg ∈ algs,
      (pyLower alg ∈ SUPPORTED_ALGORITHMS →
        dictGet (calculate_data_hash digest data (some algs)) (pyLower alg) =
          some (digest (pyLower alg) data)) ∧
      (pyLower alg ∉ SUPPORTED_ALGORITHMS →
        dictGet (calculate_data_hash digest data (some algs)) (pyLower alg) = none)) ∧
    calculate_file_hash digest fs path (some algs) =
      .ok (calculate_data_hash digest content (some algs)) := by
  constructor
  · intro alg hmem
    constructor
    · intro hsup
      unfold calculate_data_hash
      rw [dictGet_hash_fold, if_pos ((validated_algorithms_mem algs alg).1 hmem hsup)]
    · intro hsup
      unfold calculate_data_hash
      rw [dictGet_hash_fold, if_neg ((validated_algorithms_mem algs alg).2 hsup)]
      rfl
  · unfold calculate_file_hash calculate_data_hash
    rw [hfs]

/-- C8 witness: requesting `["SHA256", "crc32"]` yields an entry for
`sha256`, none for `crc32`, and the same result through the file entry
point. -/
theorem claim_C8_witness :
    (dictGet (calculate_data_hash (fun a _ => a) [1, 2]
        (some ["SHA256", "crc32"])) (pyLower "SHA256") = some (pyLower "SHA256") ∧
      dictGet (calculate_data_hash (fun a _ => a) [1, 2]
        (some ["SHA256", "crc32"])) (pyLower "crc32") = none) ∧
    calculate_file_hash (fun a _ => a) (fun p => if p = "/f" then some [1, 2] else none)
        "/f" (some ["SHA256", "crc32"]) =
      .ok (calculate_data_hash (fun a _ => a) [1, 2] (some ["SHA256", "crc32"])) := by
  have h := claim_C8_unsupported_dropped (fun a _ => a)
    (fun p => if p = "/f" then some [1, 2] else none) "/f" [1, 2] [1, 2]
    ["SHA256", "crc32"] (by decide)
  exact ⟨⟨(h.1 "SHA256" (by decide)).1 (by decide), (h.1 "crc32" (by decide)).2 (by decide)⟩,
    h.2⟩


/-- A fixed clock and two concrete entries: `entC` has identical timestamps
(confidence 0.4, one anomaly), `entD` is clean (confidence 0, no anomaly). -/
def nowRef : DT := ⟨1000000000, 0⟩

def entC : FileEntry := ⟨"/evil", false, some ⟨100, 5⟩, some ⟨100, 5⟩, some ⟨100, 5⟩⟩

def entD : FileEntry := ⟨"/ok", false, some ⟨100, 1⟩, some ⟨200, 1⟩, some ⟨300, 1⟩⟩

theorem analyze_entC :
    analyze_timestamps nowRef entC =
      ⟨"/evil", [⟨"identical_timestamps", "high"⟩], 2 / 5⟩ := by
  have h1 : check_identical_timestamps entC = true := by decide
  have h2 : check_timestamp_order entC = none := by decide
  have h3 : check_timestamp_precision entC = none := by decide
  have h4 : check_future_timestamps nowRef entC = none := by decide
  rw [analyze_timestamps, if_neg (by decide)]
  simp only [h1, h2, h3, h4, if_pos, if_true, Option.toList_none, Option.isSome_none,
    Bool.false_eq_true, if_false, List.append_nil]
  rw [AnalysisResult.mk.injEq]
  refine ⟨rfl, rfl, ?_⟩
  rw [min_eq_left (by norm_num)]
  norm_num

theorem analyze_entD : analyze_timestamps nowRef entD = ⟨"/ok", [], 0⟩ := by
  have h1 : check_identical_timestamps entD = false := by decide
  have h2 : check_timestamp_order entD = none := by decide
  have h3 : check_timestamp_precision entD = none := by decide
  have h4 : check_future_timestamps nowRef entD = none := by decide
  rw [analyze_timestamps, if_neg (by decide)]
  simp only [h1, h2, h3, h4, Option.toList_none, Option.isSome_none, Bool.false_eq_true,
    if_false, List.append_nil]
  rw [AnalysisResult.mk.injEq]
  refine ⟨rfl, rfl, ?_⟩
  norm_num

theorem analyze_dir_CD :
    analyze_directory nowRef [entC, entD] =
      ⟨2, [⟨"/evil", [⟨"identical_timestamps", "high"⟩], 2 / 5⟩], [],
        some ⟨1 / 5, 2 / 5, 1⟩⟩ := by
  have hpat : find_timestamp_patterns [entC, entD] = [] := by decide
  rw [analyze_directory]
  simp only [List.filter, List.map, analyze_entC, analyze_entD, hpat]
  rw [DirAnalysis.mk.injEq]
  refine ⟨rfl, by simp, rfl, ?_⟩
  norm_num [pyMean, pyMax]

/-- **C2 counterexample.** For the two-entry batch `[entC, entD]` the one
suspicious file is `entC` with confidence 2/5, so the mean confidence over
the suspicious files is 2/5 — but the reported `average_confidence` is 1/5,
the mean over **all** analysed files (the clean file's 0 dilutes it).  The
claim's description of `average_confidence` is therefore false on the code. -/
theorem claim_C2_counterexample :
    (analyze_directory nowRef [entC, entD]).statistics =
      some ⟨1 / 5, 2 / 5, 1⟩ ∧
    (analyze_directory nowRef [entC, entD]).suspicious_files.map (·.confidence) = [2 / 5] ∧
    pyMean ((analyze_directory nowRef [entC, entD]).suspicious_files.map (·.confidence)) =
      2 / 5 ∧
    (1 / 5 : ℚ) ≠ 2 / 5 := by
  rw [analyze_dir_CD]
  refine ⟨rfl, rfl, ?_, by norm_num⟩
  norm_num [pyMean]


/-- **C2 (amended).** Whenever at least one non-directory entry is analysed,
the reported `average_confidence` and `max_confidence` are the mean and the
maximum of the confidence scores of **all** analysed non-directory entries
(not only the suspicious ones), and `files_with_anomalies` equals the number
of suspicious files (analysed entries with at least one anomaly), which are
exactly the entries reported in `suspicious_files`. -/
theorem claim_C2_stats_over_all_analyzed (now : DT) (entries : List FileEntry)
    (hne : (entries.filter (fun e => !e.is_directory)).map (analyze_timestamps now) ≠ []) :
    (analyze_directory now entries).statistics =
      some ⟨pyMean (((entries.filter (fun e => !e.is_directory)).map
              (analyze_timestamps now)).map (·.confidence)),
            pyMax (((entries.filter (fun e => !e.is_directory)).map
              (analyze_timestamps now)).map (·.confidence)),
            ((entries.filter (fun e => !e.is_directory)).map
              (analyze_timestamps now)).countP (fun r => !r.anomalies.isEmpty)⟩ ∧
    (analyze_directory now entries).suspicious_files =
      ((entries.filter (fun e => !e.is_directory)).map
        (analyze_timestamps now)).filter (fun r => !r.anomalies.isEmpty) := by
  have hmapne : ((entries.filter (fun e => !e.is_directory)).map
      (analyze_timestamps now)).isEmpty = false := by
    rw [List.isEmpty_eq_false]
    exact hne
  have hscores : ((((entries.filter (fun e => !e.is_directory)).map
      (analyze_timestamps now)).map (·.confidence))).isEmpty = false := by
    rw [List.isEmpty_eq_false]
    intro hc
    exact hne (List.map_eq_nil_iff.mp hc)
  constructor
  · simp only [analyze_directory, hmapne, hscores, Bool.false_eq_true, if_false,
      Option.some.injEq, DirStatistics.mk.injEq]
    exact ⟨trivial, trivial, (List.countP_eq_length_filter _ _).symm⟩
  · simp only [analyze_directory]

/-- C2 witness: for the batch `[entC, entD]` the amended statistics formula
holds (and in particular evaluates to average 1/5, maximum 2/5, one
suspicious file). -/
theorem claim_C2_witness :
    (analyze_directory nowRef [entC, entD]).statistics =
      some ⟨pyMean ((([entC, entD].filter (fun e => !e.is_directory)).map
              (analyze_timestamps nowRef)).map (·.confidence)),
            pyMax ((([entC, entD].filter (fun e => !e.is_directory)).map
              (analyze_timestamps nowRef)).map (·.confidence)),
            (([entC, entD].filter (fun e => !e.is_directory)).map
              (analyze_timestamps nowRef)).countP (fun r => !r.anomalies.isEmpty)⟩ ∧
    (analyze_directory nowRef [entC, entD]).suspicious_files =
      (([entC, entD].filter (fun e => !e.is_directory)).map
        (analyze_timestamps nowRef)).filter (fun r => !r.anomalies.isEmpty) :=
  claim_C2_stats_over_all_analyzed nowRef [entC, entD]
    (by rw [Ne, List.map_eq_nil_iff]; decide)


/-- Association-list lookup in the grouping dict (`timestamp_groups[k]`,
empty when the key is absent). -/
def getGroup (gs : List (DT × List String)) (k : DT) : List String :=
  match gs with
  | [] => []
  | (k', ps) :: rest => if k' = k then ps else getGroup rest k

/-- The paths of the entries whose (present) modified timestamp truncates to
`k`, in entry order: the group the dict builds under key `k`. -/
def groupPaths (k : DT) (entries : List FileEntry) : List String :=
  entries.filterMap fun e =>
    match e.modified_time with
    | some t => if t.truncSec = k then some e.path else none
    | none => none

theorem getGroup_addToGroup (gs : List (DT × List String)) (k : DT) (p : String) (k' : DT) :
    getGroup (addToGroup gs k p) k' =
      if k' = k then getGroup gs k ++ [p] else getGroup gs k' := by
  induction gs with
  | nil =>
      simp only [addToGroup, getGroup, List.nil_append]
      by_cases h : k' = k
      · rw [if_pos h.symm, if_pos h]
      · rw [if_neg (fun hc => h hc.symm), if_neg h]
  | cons g rest ih =>
      obtain ⟨k'', ps⟩ := g
      by_cases h1 : k'' = k <;> by_cases h2 : k' = k <;> by_cases h3 : k'' = k' <;>
        simp_all [addToGroup, getGroup]

theorem getGroup_eq_nil (gs : List (DT × List String)) (k : DT)
    (h : k ∉ gs.map Prod.fst) : getGroup gs k = [] := by
  induction gs with
  | nil => rfl
  | cons g rest ih =>
      obtain ⟨k'', ps⟩ := g
      simp only [List.map_cons, List.mem_cons, not_or] at h
      simp only [getGroup, if_neg (fun hc : k'' = k => h.1 hc.symm)]
      exact ih h.2

theorem keys_addToGroup (gs : List (DT × List String)) (k : DT) (p : String) :
    (addToGroup gs k p).map Prod.fst =
      if k ∈ gs.map Prod.fst then gs.map Prod.fst else gs.map Prod.fst ++ [k] := by
  induction gs with
  | nil => simp [addToGroup]
  | cons g rest ih =>
      obtain ⟨k'', ps⟩ := g
      by_cases h1 : k'' = k
      · simp [addToGroup, h1]
      · simp only [addToGroup, if_neg h1, List.map_cons, ih]
        by_cases h2 : k ∈ rest.map Prod.fst
        · rw [if_pos h2, if_pos (by simp [h2])]
        · rw [if_neg h2, if_neg (by
            simp only [List.mem_cons, not_or]
            exact ⟨fun hc => h1 hc.symm, h2⟩)]
          simp

theorem keys_nodup_addToGroup (gs : List (DT × List String)) (k : DT) (p : String)
    (h : (gs.map Prod.fst).Nodup) : ((addToGroup gs k p).map Prod.fst).Nodup := by
  rw [keys_addToGroup]
  split
  · exact h
  · rename_i hk
    simp [List.nodup_append, h, hk]

theorem timestamp_groups_keys_nodup (entries : List FileEntry) :
    ((timestamp_groups entries).map Prod.fst).Nodup := by
  unfold timestamp_groups
  suffices hgen : ∀ gs : List (DT × List String), (gs.map Prod.fst).Nodup →
      ((entries.foldl (fun gs e =>
        match e.modified_time with
        | some t => addToGroup gs t.truncSec e.path
        | none => gs) gs).map Prod.fst).Nodup by
    exact hgen [] List.nodup_nil
  induction entries with
  | nil => intro gs h; exact h
  | cons e rest ih =>
      intro gs h
      rw [List.foldl_cons]
      cases hm : e.modified_time with
      | none => exact ih gs h
      | some t => exact ih _ (keys_nodup_addToGroup gs t.truncSec e.path h)

theorem getGroup_timestamp_groups_aux (k : DT) :
    ∀ (entries : List FileEntry) (gs : List (DT × List String)),
      getGroup (entries.foldl (fun gs e =>
        match e.modified_time with
        | some t => addToGroup gs t.truncSec e.path
        | none => gs) gs) k = getGroup gs k ++ groupPaths k entries := by
  intro entries
  induction entries with
  | nil => intro gs; simp [groupPaths]
  | cons e rest ih =>
      intro gs
      rw [List.foldl_cons]
      cases hm : e.modified_time with
      | none =>
          rw [ih]
          simp [groupPaths, List.filterMap_cons, hm]
      | some t =>
          rw [ih, getGroup_addToGroup]
          by_cases ht : t.truncSec = k
          · rw [if_pos ht.symm]
            simp [groupPaths, List.filterMap_cons, hm, ht, List.append_assoc]
          · rw [if_neg (fun hc => ht hc.symm)]
            simp [groupPaths, List.filterMap_cons, hm, ht]

theorem getGroup_timestamp_groups (entries : List FileEntry) (k : DT) :
    getGroup (timestamp_groups entries) k = groupPaths k entries := by
  have h := getGroup_timestamp_groups_aux k entries []
  simpa [timestamp_groups, getGroup] using h

theorem mass_patterns_filter (gs : List (DT × List String))
    (hnd : (gs.map Prod.fst).Nodup) (k : DT) :
    ((gs.filterMap fun g =>
        if 3 < g.2.length then
          some (⟨"mass_timestamp", g.1, g.2.length, g.2.take 5⟩ : TimestampPattern)
        else none).filter fun pt => pt.timestamp == k) =
      if 3 < (getGroup gs k).length then
        [⟨"mass_timestamp", k, (getGroup gs k).length, (getGroup gs k).take 5⟩]
      else [] := by
  induction gs with
  | nil => simp [getGroup]
  | cons g rest ih =>
      obtain ⟨k'', ps⟩ := g
      simp only [List.map_cons, List.nodup_cons] at hnd
      obtain ⟨hknotin, hnd'⟩ := hnd
      have ihr := ih hnd'
      simp only [List.filterMap_cons, getGroup]
      by_cases hk : k'' = k
      · subst hk
        have hrest : getGroup rest k'' = [] := getGroup_eq_nil rest k'' hknotin
        rw [hrest] at ihr
        rw [if_pos rfl]
        by_cases h3 : 3 < ps.length
        · rw [if_pos h3, if_pos h3]
          simp only [List.filter_cons]
          rw [if_pos (by simp), ihr, if_neg (by simp)]
        · rw [if_neg h3, if_neg h3, ihr, if_neg (by simp)]
      · rw [if_neg hk]
        by_cases h3 : 3 < ps.length
        · rw [if_pos h3]
          simp only [List.filter_cons]
          rw [if_neg (by simp [hk]), ihr]
        · rw [if_neg h3]
          exact ihr

/-- **C5.** Grouping batch entries by modified timestamp truncated to whole
seconds reports a `mass_timestamp` pattern exactly for groups of more than 3
members: a set of 5 files sharing one truncated modified timestamp `k` is
reported as the unique pattern for `k`, with `file_count` 5 and at most 5
sample paths, while a set of exactly 3 such files yields no pattern for
`k`. -/
theorem claim_C5_mass_timestamp_threshold (entries : List FileEntry) (k : DT) :
    ((groupPaths k entries).length = 5 →
      (find_timestamp_patterns entries).filter (fun pt => pt.timestamp == k) =
        [⟨"mass_timestamp", k, 5, (groupPaths k entries).take 5⟩] ∧
      ((groupPaths k entries).take 5).length ≤ 5) ∧
    ((groupPaths k entries).length = 3 →
      (find_timestamp_patterns entries).filter (fun pt => pt.timestamp == k) = []) := by
  have hpat := mass_patterns_filter (timestamp_groups entries)
    (timestamp_groups_keys_nodup entries) k
  rw [getGroup_timestamp_groups] at hpat
  constructor
  · intro h5
    constructor
    · rw [find_timestamp_patterns, hpat, h5, if_pos (by omega)]
    · simp [List.length_take]
  · intro h3
    rw [find_timestamp_patterns, hpat, h3, if_neg (by omega)]

/-- A batch entry with modified time `50.000003 s` (they all share the
truncated key `⟨50, 0⟩`). -/
def entP (p : String) : FileEntry := ⟨p, false, some ⟨1, 1⟩, some ⟨50, 3⟩, some ⟨2, 2⟩⟩

/-- C5 witness: five files sharing the truncated timestamp `⟨50, 0⟩` produce
the unique pattern with `file_count` 5, and three such files produce none. -/
theorem claim_C5_witness :
    ((find_timestamp_patterns [entP "/a", entP "/b", entP "/c", entP "/d", entP "/e"]).filter
        (fun pt => pt.timestamp == (⟨50, 0⟩ : DT)) =
      [⟨"mass_timestamp", ⟨50, 0⟩, 5,
        (groupPaths ⟨50, 0⟩ [entP "/a", entP "/b", entP "/c", entP "/d", entP "/e"]).take 5⟩] ∧
      ((groupPaths ⟨50, 0⟩ [entP "/a", entP "/b", entP "/c", entP "/d", entP "/e"]).take
        5).length ≤ 5) ∧
    (find_timestamp_patterns [entP "/a", entP "/b", entP "/c"]).filter
        (fun pt => pt.timestamp == (⟨50, 0⟩ : DT)) = [] :=
  ⟨(claim_C5_mass_timestamp_threshold
      [entP "/a", entP "/b", entP "/c", entP "/d", entP "/e"] ⟨50, 0⟩).1 (by decide),
    (claim_C5_mass_timestamp_threshold [entP "/a", entP "/b", entP "/c"] ⟨50, 0⟩).2
      (by decide)⟩

end ByteProbe
